import Mathlib

/-!
Shallow embedding of the `ringbuffer` Go package (file `ringbuffer.go`) and
verification of its specification.

Modelling conventions:
* Go `int` is a 64-bit signed integer.  In every state reachable through the
  public API all the struct fields are non-negative, so fields are modelled as
  `Nat`.  Comparisons that Go evaluates over signed integers (and that could
  see a negative right-hand side) are written over `Int` with explicit casts.
  The two additions in `ensureCapacity` that can wrap around 2^63 are modelled
  by explicit `2 ^ 63` tests; comments at those points explain the
  correspondence with the wrap-around behaviour of Go's two's-complement `int`.
* Byte slices are modelled as `List Nat`; `copy(dst, src)` is modelled by
  `overwrite`, which transfers `min (len src) (len dst)` elements.
* The mutex is omitted: every execution modelled here is sequential, which is
  what all the verified claims are about.
-/

set_option maxHeartbeats 1000000
set_option maxRecDepth 4000

namespace RB

/-- The two errors the buffer can produce: `io.EOF` and the
`errors.New("buffer overflow")` value created in `ensureCapacity`. -/
inductive GoErr
  | eof
  | bufferOverflow
  deriving DecidableEq

/-- The `RingBuffer` struct (lines 12-18 of ringbuffer.go) minus the mutex:
backing array `buf`, growth quantum `growSize`, read position `readPos` and
count of unread bytes `written`. -/
structure RingBuffer where
  buf : List Nat
  growSize : Nat
  readPos : Nat
  written : Nat
  deriving DecidableEq

/-- `Initialize` (lines 37-55).  The requested size is any Go `int`, hence
`Int`.  Values ≤ 15 become 16, values > 1048576 become 1048576, values in
between are rounded up to a power of two by the literal bit-smearing sequence
(`growSize -= 1`, five or-with-shift steps, `growSize += 1`).  Only `buf`
(a fresh zeroed array) and `growSize` are assigned; `readPos` and `written`
are left untouched. -/
def Initialize (r : RingBuffer) (growSize : Int) : RingBuffer :=
  let g : Nat :=
    if growSize ≤ 15 then 16
    else if growSize > 1048576 then 1048576
    else
      let g0 := growSize.toNat - 1
      let g1 := g0 ||| g0 >>> 1
      let g2 := g1 ||| g1 >>> 2
      let g3 := g2 ||| g2 >>> 4
      let g4 := g3 ||| g3 >>> 8
      let g5 := g4 ||| g4 >>> 16
      g5 + 1
  { r with buf := List.replicate g 0, growSize := g }

/-- `New` (lines 25-32): `Initialize` applied to a zero-valued struct. -/
def New (growSize : Int) : RingBuffer :=
  Initialize ⟨[], 0, 0, 0⟩ growSize

/-- `readInfo` (lines 191-200): offset and lengths of the (at most two)
contiguous runs holding the unread bytes.  The branch test compares signed
integers in Go, so it is written over `Int`; inside each branch the
subtractions are non-negative whenever the branch is taken on a state with
`readPos ≤ len buf`, so `Nat` subtraction agrees with Go there. -/
def readInfo (r : RingBuffer) : Nat × Nat × Nat :=
  if (r.readPos : Int) ≤ (r.buf.length : Int) - (r.written : Int) then
    (r.readPos, r.written, 0)
  else
    (r.readPos, r.buf.length - r.readPos, r.written - (r.buf.length - r.readPos))

/-- `writeInfo` (lines 202-218): offset and lengths of the (at most two)
contiguous free runs.  Branch test over `Int` as in `readInfo`. -/
def writeInfo (r : RingBuffer) : Nat × Nat × Nat :=
  if r.written = r.buf.length then (0, 0, 0)
  else if (r.readPos : Int) < (r.buf.length : Int) - (r.written : Int) then
    (r.readPos + r.written, r.buf.length - (r.readPos + r.written),
      if 0 < r.readPos then r.readPos else 0)
  else
    (r.readPos - (r.buf.length - r.written), r.buf.length - r.written, 0)

/-- Go's `copy(dst[ofs:], src)`: overwrite `min (len src) (len dst - ofs)`
elements of `dst` starting at `ofs` with the prefix of `src`.  Every concrete
`copy` in the source is an instance of this scheme (for `copy(dst[a:b], src)`
the code guarantees `len src ≤ b - a` wherever that form is used, so limiting
by `len dst - a` is equivalent). -/
def overwrite (dst : List Nat) (ofs : Nat) (src : List Nat) : List Nat :=
  let k := min src.length (dst.length - ofs)
  dst.take ofs ++ src.take k ++ dst.drop (ofs + k)

/-- `growBuffer` (lines 233-248): if `newSize` exceeds the current capacity,
allocate a zeroed array of `newSize` bytes, copy the unread region to its
front (one run when it does not wrap, tail then head when it does), install it
and reset `readPos` to 0. -/
def growBuffer (r : RingBuffer) (newSize : Nat) : RingBuffer :=
  if r.buf.length < newSize then
    let newBuf :=
      if (r.readPos : Int) + (r.written : Int) ≤ (r.buf.length : Int) then
        overwrite (List.replicate newSize 0) 0 ((r.buf.drop r.readPos).take r.written)
      else
        let temp := r.buf.length - r.readPos
        overwrite (overwrite (List.replicate newSize 0) 0 (r.buf.drop r.readPos))
          temp (r.buf.take (r.written - temp))
    { r with buf := newBuf, readPos := 0 }
  else r

/-- `ensureCapacity` (lines 220-231).  In Go, `required := r.written + n`
wraps around: for `written, n ∈ [0, 2^63)` the test `required < n` succeeds
exactly when `written + n ≥ 2^63`, which is how the first branch is written
here.  The subsequent `newSize := required + (r.growSize - rem)` can also
exceed the largest `int64`; in that case the Go value wraps to a negative
number, so `growBuffer`'s `newSize > len(r.buf)` test fails and no growth
happens — modelled by the `newSize < 2 ^ 63` guard around `growBuffer`. -/
def ensureCapacity (r : RingBuffer) (n : Nat) : Option GoErr × RingBuffer :=
  if (n : Int) > (r.buf.length : Int) - (r.written : Int) then
    if 2 ^ 63 ≤ r.written + n then (some .bufferOverflow, r)
    else
      let required := r.written + n
      let rem := required % r.growSize
      let newSize := required + (r.growSize - rem)
      if newSize < 2 ^ 63 then (none, growBuffer r newSize) else (none, r)
  else (none, r)

/-- `advanceReadPos` (lines 250-257).  Branch test over `Int`; in the `else`
branch Go computes `readPos - (len(buf) - n)`, which is non-negative exactly
because the branch condition failed, hence the `Int.toNat`. -/
def advanceReadPos (r : RingBuffer) (n : Nat) : RingBuffer :=
  if (r.readPos : Int) < (r.buf.length : Int) - (n : Int) then
    { r with readPos := r.readPos + n, written := r.written - n }
  else
    { r with readPos := ((r.readPos : Int) - ((r.buf.length : Int) - (n : Int))).toNat,
             written := r.written - n }

/-- `advanceWritePos` (lines 259-261). -/
def advanceWritePos (r : RingBuffer) (n : Nat) : RingBuffer :=
  { r with written := r.written + n }

/-- `peek` (lines 263-286).  The destination slice only matters through its
length, and the bytes Go places beyond the returned count are not part of the
result, so the model takes `destLen` and returns `(count, error, bytes read)`
where `bytes read` are the first `count` bytes Go copies into `buf`:
run 1 from `ofs1` and then run 2 from offset 0 (when `destLen ≤ len1` Go's
single `copy` yields the same first `count` bytes).  Caveat: on a corrupted
state with `written > len(buf)` and `destLen > len1`, Go's second copy slices
`r.buf[:len2]` with `len2 > len(buf)` and panics, while `List.take` truncates;
the model is therefore only consulted on executions where that slice is in
bounds — every theorem below either carries the invariant or, at corrupted
states, evaluates `peek` only with `destLen ≤ len1`, where Go never reaches
the second copy. -/
def peek (r : RingBuffer) (destLen : Nat) : Nat × Option GoErr × List Nat :=
  if destLen = 0 then (0, none, [])
  else
    let i := readInfo r
    if i.2.1 = 0 ∧ i.2.2 = 0 then (0, some .eof, [])
    else
      let n := min destLen (i.2.1 + i.2.2)
      (n, none, ((r.buf.drop i.1).take i.2.1 ++ r.buf.take i.2.2).take n)

/-- `Peek` (lines 60-66): lock, `peek`, unlock.  The body of `peek` assigns no
field, so the state after the call is the input state. -/
def Peek (r : RingBuffer) (destLen : Nat) : (Nat × Option GoErr × List Nat) × RingBuffer :=
  (peek r destLen, r)

/-- `Read` (lines 71-82): `peek`, then `advanceReadPos` only when the error is
nil. -/
def Read (r : RingBuffer) (destLen : Nat) : (Nat × Option GoErr × List Nat) × RingBuffer :=
  let p := peek r destLen
  match p.2.1 with
  | none => (p, advanceReadPos r p.1)
  | some e => ((p.1, some e, p.2.2), r)

/-- The copy block of `Write` (lines 103-113): obtain the writable runs, copy
`p` into run 1 (and the spill into run 2 when `len p > len1`), then
`advanceWritePos`. -/
def writeCore (r : RingBuffer) (p : List Nat) : RingBuffer :=
  let w := writeInfo r
  let buf1 :=
    if p.length ≤ w.2.1 then overwrite r.buf w.1 p
    else overwrite (overwrite r.buf w.1 (p.take w.2.1)) 0 ((p.drop w.2.1).take w.2.2)
  advanceWritePos { r with buf := buf1 } p.length

/-- `Write` (lines 87-117): empty input short-circuits with `(0, nil)`;
otherwise `ensureCapacity`, and on failure return `(0, err)` with the state
untouched, on success run the copy block and report `(len p, nil)`. -/
def Write (r : RingBuffer) (p : List Nat) : (Nat × Option GoErr) × RingBuffer :=
  if p.length = 0 then ((0, none), r)
  else
    let ec := ensureCapacity r p.length
    match ec.1 with
    | some e => ((0, some e), ec.2)
    | none => ((p.length, none), writeCore ec.2 p)

/-- `Len` (lines 184-189). -/
def Len (r : RingBuffer) : Nat := r.written

/-- The loop of `Scan` (lines 163-181) expressed over the concatenation of the
two readable runs: the Go code visits run 1 with indices `0..len1-1` and run 2
with indices `len1..len1+len2-1`, i.e. the elements of the concatenated list
with consecutive indices from 0.  The visitor's captured local variables are
the `σ` state; it returns the updated state and the stop flag. -/
def scanAux {σ : Type} (fn : σ → Nat → Nat → σ × Bool) : List Nat → Nat → σ → σ
  | [], _, s => s
  | e :: rest, idx, s =>
    let step := fn s e idx
    if step.2 then step.1 else scanAux fn rest (idx + 1) step.1

/-- The unread bytes in logical order: run 1 then run 2 as given by
`readInfo`. -/
def contents (r : RingBuffer) : List Nat :=
  let i := readInfo r
  (r.buf.drop i.1).take i.2.1 ++ r.buf.take i.2.2

/-- `Scan` (lines 163-181). -/
def Scan {σ : Type} (r : RingBuffer) (fn : σ → Nat → Nat → σ × Bool) (init : σ) : σ :=
  scanAux fn (contents r) 0 init

/-- `Find` (lines 121-131): scan for the first byte equal to `b`, capturing
`foundIdx` (initially -1). -/
def Find (r : RingBuffer) (b : Nat) : Int :=
  Scan r (fun found elem idx =>
    if elem = b then ((idx : Int), true) else (found, false)) (-1 : Int)

/-- The visitor closure of `FindBytes` (lines 143-157): its captured locals
`(foundIdx, currentOfs, potentialStartIdx)` are the fold state.  On a byte
equal to `b[currentOfs]` it records the start when `currentOfs` is 0 and
advances the offset, stopping with success when the offset reaches `len b`;
on a mismatch it resets `currentOfs` to 0 and continues with the next byte. -/
def findBytesStep (b : List Nat) (st : Int × Nat × Int) (elem idx : Nat) :
    (Int × Nat × Int) × Bool :=
  let found := st.1
  let currentOfs := st.2.1
  let potentialStartIdx := st.2.2
  if elem = b.getD currentOfs 0 then
    let pot := if currentOfs = 0 then (idx : Int) else potentialStartIdx
    if currentOfs + 1 = b.length then ((pot, currentOfs + 1, pot), true)
    else ((found, currentOfs + 1, pot), false)
  else ((found, 0, potentialStartIdx), false)

/-- `FindBytes` (lines 135-159): empty needle returns -1 immediately;
otherwise scan with `findBytesStep` starting from
`(foundIdx, currentOfs, potentialStartIdx) = (-1, 0, -1)`. -/
def FindBytes (r : RingBuffer) (b : List Nat) : Int :=
  if b.length = 0 then -1
  else
    let final := Scan r (findBytesStep b) ((-1 : Int), (0 : Nat), (-1 : Int))
    final.1

/-- Well-formedness of a buffer state: positive growth quantum, read position
inside the backing array, unread count at most the capacity.  Every state
produced by `New` satisfies it. -/
def Inv (r : RingBuffer) : Prop :=
  0 < r.growSize ∧ r.readPos < r.buf.length ∧ r.written ≤ r.buf.length

/-- Modelled from the spec: "Target size = `live_count + requested`, rounded
up to the next multiple of `growth_quantum`" read as the least multiple of `q`
that is `≥ x` (the standard meaning of rounding up to a multiple). -/
def specRoundUpToMultiple (x q : Nat) : Nat := ((x + q - 1) / q) * q

/-- Modelled from the spec (§4.7): the single-pass streaming match of
`FindSequence`: walk the content once keeping a match offset and a candidate
start; on a matching byte advance the offset (recording the start when the
offset begins at zero) and succeed when the offset reaches the target length;
on a mismatch reset the offset to zero and move to the next byte. -/
def specFindSeqAux (target : List Nat) : List Nat → Nat → Nat → Int → Int
  | [], _, _, _ => -1
  | c :: rest, idx, matchOfs, start =>
    if c = target.getD matchOfs 0 then
      let start1 := if matchOfs = 0 then (idx : Int) else start
      if matchOfs + 1 = target.length then start1
      else specFindSeqAux target rest (idx + 1) (matchOfs + 1) start1
    else specFindSeqAux target rest (idx + 1) 0 start

/-- Modelled from the spec (§4.7): `FindSequence` — empty target yields "not
found" (-1), otherwise the streaming match over the unread content. -/
def specFindSequence (content target : List Nat) : Int :=
  if target = [] then -1 else specFindSeqAux target content 0 0 (-1)

/-- Many `Write` calls in order; the flag records that every call returned a
nil error. -/
def writeMany (r : RingBuffer) : List (List Nat) → RingBuffer × Bool
  | [] => (r, true)
  | p :: ps =>
    let w := Write r p
    let rest := writeMany w.2 ps
    (rest.1, w.1.2.isNone && rest.2)

/-- Many `Read` calls with the given destination sizes; returns the
concatenation of all bytes read and the final state. -/
def readMany (r : RingBuffer) : List Nat → List Nat × RingBuffer
  | [] => ([], r)
  | k :: ks =>
    let rd := Read r k
    let rest := readMany rd.2 ks
    (rd.1.2.2 ++ rest.1, rest.2)

/-! ### Basic facts about the embedded operations -/

lemma length_overwrite (dst : List Nat) (ofs : Nat) (src : List Nat) :
    (overwrite dst ofs src).length = dst.length := by
  simp only [overwrite, List.length_append, List.length_take, List.length_drop]
  omega

lemma readInfo_nowrap {r : RingBuffer} (h : r.readPos + r.written ≤ r.buf.length) :
    readInfo r = (r.readPos, r.written, 0) := by
  simp only [readInfo]
  rw [if_pos (by omega)]

lemma readInfo_wrap {r : RingBuffer} (h : r.buf.length < r.readPos + r.written) :
    readInfo r =
      (r.readPos, r.buf.length - r.readPos, r.written - (r.buf.length - r.readPos)) := by
  simp only [readInfo]
  rw [if_neg (by omega)]

lemma contents_nowrap {r : RingBuffer} (h : r.readPos + r.written ≤ r.buf.length) :
    contents r = (r.buf.drop r.readPos).take r.written := by
  simp [contents, readInfo_nowrap h]

lemma contents_wrap {r : RingBuffer} (hr : r.readPos ≤ r.buf.length)
    (h : r.buf.length < r.readPos + r.written) :
    contents r = r.buf.drop r.readPos ++ r.buf.take (r.readPos + r.written - r.buf.length) := by
  simp only [contents, readInfo_wrap h]
  have h1 : (r.buf.drop r.readPos).take (r.buf.length - r.readPos) = r.buf.drop r.readPos :=
    List.take_of_length_le (by simp)
  rw [h1]
  congr 2
  omega

lemma length_contents {r : RingBuffer} (hr : r.readPos ≤ r.buf.length)
    (hw : r.written ≤ r.buf.length) : (contents r).length = r.written := by
  rcases le_or_lt (r.readPos + r.written) r.buf.length with h | h
  · rw [contents_nowrap h]
    simp only [List.length_take, List.length_drop]
    omega
  · rw [contents_wrap hr h]
    simp only [List.length_append, List.length_take, List.length_drop]
    omega

lemma take_min_of_length_le {c : List Nat} {w : Nat} (k : Nat) (h : c.length ≤ w) :
    c.take (min k w) = c.take k := by
  rcases le_or_lt k w with hk | hk
  · rw [min_eq_left hk]
  · rw [min_eq_right hk.le, List.take_of_length_le h, List.take_of_length_le (by omega)]

/-! ### `peek` -/

lemma peek_zero (r : RingBuffer) : peek r 0 = (0, none, []) := by
  simp [peek]

lemma peek_empty {r : RingBuffer} {k : Nat} (hr : r.readPos ≤ r.buf.length)
    (hw : r.written = 0) (hk : k ≠ 0) : peek r k = (0, some .eof, []) := by
  have : readInfo r = (r.readPos, r.written, 0) := readInfo_nowrap (by omega)
  simp [peek, this, hk, hw]

lemma readInfo_sum {r : RingBuffer} (hr : r.readPos ≤ r.buf.length)
    (hw : r.written ≤ r.buf.length) :
    (readInfo r).2.1 + (readInfo r).2.2 = r.written := by
  rcases le_or_lt (r.readPos + r.written) r.buf.length with h | h
  · simp [readInfo_nowrap h]
  · simp only [readInfo_wrap h]
    omega

lemma peek_main {r : RingBuffer} {k : Nat} (hr : r.readPos ≤ r.buf.length)
    (hw : r.written ≤ r.buf.length) (hw0 : r.written ≠ 0) (hk : k ≠ 0) :
    peek r k = (min k r.written, none, (contents r).take k) := by
  have hsum := readInfo_sum hr hw
  have hne : ¬((readInfo r).2.1 = 0 ∧ (readInfo r).2.2 = 0) := by
    intro h
    exact hw0 (by rw [← hsum, h.1, h.2])
  have hdata :
      (r.buf.drop (readInfo r).1).take (readInfo r).2.1 ++ r.buf.take (readInfo r).2.2 =
        contents r := rfl
  simp only [peek, if_neg hk, if_neg hne, hsum, hdata]
  rw [take_min_of_length_le k (le_of_eq (length_contents hr hw))]

/-! ### `advanceReadPos` and `Read` -/

lemma contents_mk_nowrap (b : List Nat) (g p w : Nat) (h : p + w ≤ b.length) :
    contents ⟨b, g, p, w⟩ = (b.drop p).take w := by
  simpa using @contents_nowrap ⟨b, g, p, w⟩ (by simpa using h)

lemma contents_mk_wrap (b : List Nat) (g p w : Nat) (hr : p ≤ b.length)
    (h : b.length < p + w) :
    contents ⟨b, g, p, w⟩ = b.drop p ++ b.take (p + w - b.length) := by
  simpa using @contents_wrap ⟨b, g, p, w⟩ (by simpa using hr) (by simpa using h)

lemma advanceReadPos_fields (r : RingBuffer) (n : Nat) :
    (advanceReadPos r n).buf = r.buf ∧ (advanceReadPos r n).growSize = r.growSize ∧
      (advanceReadPos r n).written = r.written - n := by
  unfold advanceReadPos
  split <;> exact ⟨rfl, rfl, rfl⟩

lemma advanceReadPos_mk_lt (b : List Nat) (g p w n : Nat) (hb : p + n < b.length) :
    advanceReadPos ⟨b, g, p, w⟩ n = ⟨b, g, p + n, w - n⟩ := by
  unfold advanceReadPos
  split
  next hcond => rfl
  next hcond => exact absurd (show ((p : Int) < (b.length : Int) - (n : Int)) by omega) hcond

lemma advanceReadPos_mk_ge (b : List Nat) (g p w n : Nat) (hb : b.length ≤ p + n)
    (hn : n ≤ b.length) :
    advanceReadPos ⟨b, g, p, w⟩ n = ⟨b, g, p + n - b.length, w - n⟩ := by
  unfold advanceReadPos
  split
  next hcond =>
    have hcond2 : (p : Int) < (b.length : Int) - (n : Int) := hcond
    exact absurd hcond2 (by omega)
  next hcond =>
    simp only [RingBuffer.mk.injEq, true_and, and_true]
    omega

lemma advanceReadPos_zero (r : RingBuffer) (h : r.readPos < r.buf.length) :
    advanceReadPos r 0 = r := by
  rcases r with ⟨b, g, p, w⟩
  rw [advanceReadPos_mk_lt b g p w 0 (by simp at h; omega)]
  simp

lemma advance_contents {r : RingBuffer} {n : Nat} (h : Inv r) (hn : n ≤ r.written) :
    contents (advanceReadPos r n) = (contents r).drop n := by
  obtain ⟨hq, hr, hw⟩ := h
  rcases r with ⟨b, g, p, w⟩
  simp only at hr hw hn
  rcases lt_or_le (p + n) b.length with hb | hb
  · rw [advanceReadPos_mk_lt b g p w n hb]
    rcases le_or_lt (p + w) b.length with ho | ho
    · rw [contents_mk_nowrap b g (p + n) (w - n) (by omega), contents_mk_nowrap b g p w (by omega)]
      simp only [List.drop_take, List.drop_drop]
    · rw [contents_mk_wrap b g (p + n) (w - n) (by omega) (by omega),
        contents_mk_wrap b g p w (by omega) ho]
      simp only [List.drop_append_eq_append_drop, List.drop_drop, List.length_drop]
      have h2 : n - (b.length - p) = 0 := by omega
      rw [h2, List.drop_zero]
      congr 2
      omega
  · have hn' : n ≤ b.length := by omega
    rw [advanceReadPos_mk_ge b g p w n hb hn']
    have ho : b.length ≤ p + w := by omega
    rcases eq_or_lt_of_le ho with ho' | ho'
    · -- the unread region ends exactly at the end of the array and n = written
      have hnw : n = w := by omega
      rw [contents_mk_nowrap b g (p + n - b.length) (w - n) (by omega),
        contents_mk_nowrap b g p w (by omega)]
      simp only [hnw, Nat.sub_self, List.take_zero]
      rw [List.drop_of_length_le (by simp only [List.length_take, List.length_drop]; omega)]
    · rw [contents_mk_nowrap b g (p + n - b.length) (w - n) (by omega),
        contents_mk_wrap b g p w (by omega) ho']
      have e1 : (b.drop p).drop n = ([] : List Nat) :=
        List.drop_of_length_le (by simp only [List.length_drop]; omega)
      have e2 : (b.take (p + w - b.length)).drop (n - (b.length - p)) =
          (b.drop (p + n - b.length)).take (w - n) := by
        rw [List.drop_take]
        congr 1
        · omega
        · congr 1
          omega
      rw [List.drop_append_eq_append_drop]
      simp only [List.length_drop]
      rw [e1, List.nil_append, e2]

lemma advance_inv {r : RingBuffer} {n : Nat} (h : Inv r) (hn : n ≤ r.written) :
    Inv (advanceReadPos r n) := by
  obtain ⟨hq, hr, hw⟩ := h
  rcases r with ⟨b, g, p, w⟩
  simp only at hr hw hn
  rcases lt_or_le (p + n) b.length with hb | hb
  · rw [advanceReadPos_mk_lt b g p w n hb]
    exact ⟨hq, by simpa using hb, by simp; omega⟩
  · rw [advanceReadPos_mk_ge b g p w n hb (by omega)]
    exact ⟨hq, by simp; omega, by simp; omega⟩

lemma read_correct {r : RingBuffer} (k : Nat) (h : Inv r) :
    (Read r k).1.2.2 = (contents r).take k ∧
      contents (Read r k).2 = (contents r).drop k ∧
      Inv (Read r k).2 ∧
      (Read r k).2.growSize = r.growSize ∧
      (Read r k).2.buf.length = r.buf.length := by
  obtain ⟨hq, hr, hw⟩ := h
  have hc : (contents r).length = r.written := length_contents hr.le hw
  by_cases hk : k = 0
  · subst hk
    have hstate : (Read r 0).2 = r := by
      simp only [Read, peek_zero]
      exact advanceReadPos_zero r hr
    have hdata : (Read r 0).1.2.2 = ([] : List Nat) := by
      simp only [Read, peek_zero]
    refine ⟨?_, ?_, ?_, ?_, ?_⟩ <;> simp only [hstate, hdata] <;>
      first
      | simp
      | exact ⟨hq, hr, hw⟩
  · by_cases hw0 : r.written = 0
    · have hcon : contents r = [] := List.eq_nil_of_length_eq_zero (by omega)
      have hstate : (Read r k).2 = r := by
        simp only [Read, peek_empty hr.le hw0 hk]
      have hdata : (Read r k).1.2.2 = ([] : List Nat) := by
        simp only [Read, peek_empty hr.le hw0 hk]
      refine ⟨?_, ?_, ?_, ?_, ?_⟩ <;> simp only [hstate, hdata] <;>
        first
        | simp [hcon]
        | exact ⟨hq, hr, hw⟩
    · have hp := peek_main hr.le hw hw0 hk
      have hmin : min k r.written ≤ r.written := min_le_right _ _
      have hf := advanceReadPos_fields r (min k r.written)
      have hdrop : (contents r).drop (min k r.written) = (contents r).drop k := by
        rcases le_or_lt k r.written with hkw | hkw
        · rw [min_eq_left hkw]
        · rw [min_eq_right hkw.le, List.drop_of_length_le (by omega),
            List.drop_of_length_le (by omega)]
      have hstate : (Read r k).2 = advanceReadPos r (min k r.written) := by
        simp only [Read, hp]
      have hdata : (Read r k).1.2.2 = (contents r).take k := by
        simp only [Read, hp]
      refine ⟨hdata, ?_, ?_, ?_, ?_⟩
      · rw [hstate, advance_contents ⟨hq, hr, hw⟩ hmin, hdrop]
      · rw [hstate]
        exact advance_inv ⟨hq, hr, hw⟩ hmin
      · rw [hstate]
        exact hf.2.1
      · rw [hstate, hf.1]
/-! ### `growBuffer`, `ensureCapacity`, `writeCore` and `Write` -/

lemma take_exact (x y : List Nat) (m : Nat) (h : x.length = m) : (x ++ y).take m = x := by
  subst h
  exact List.take_left x y

lemma drop_exact (x y : List Nat) (m : Nat) (h : x.length = m) : (x ++ y).drop m = y := by
  subst h
  exact List.drop_left x y

/-- When the copy fits (`ofs + len src ≤ len dst`), `overwrite` splices `src`
in whole, which is the situation at every `copy` reached under the
invariant. -/
lemma overwrite_eq (dst src : List Nat) (ofs : Nat) (h : ofs + src.length ≤ dst.length) :
    overwrite dst ofs src = dst.take ofs ++ src ++ dst.drop (ofs + src.length) := by
  simp only [overwrite]
  rw [min_eq_left (by omega), List.take_length]

lemma growBuffer_mk_nowrap (b : List Nat) (g p w ns : Nat) (hgt : b.length < ns)
    (ho : p + w ≤ b.length) :
    growBuffer ⟨b, g, p, w⟩ ns =
      ⟨overwrite (List.replicate ns 0) 0 ((b.drop p).take w), g, 0, w⟩ := by
  simp only [growBuffer]
  rw [if_pos hgt, if_pos (by push_cast; omega)]

lemma growBuffer_mk_wrap (b : List Nat) (g p w ns : Nat) (hgt : b.length < ns)
    (ho : b.length < p + w) :
    growBuffer ⟨b, g, p, w⟩ ns =
      ⟨overwrite (overwrite (List.replicate ns 0) 0 (b.drop p)) (b.length - p)
        (b.take (w - (b.length - p))), g, 0, w⟩ := by
  simp only [growBuffer]
  rw [if_pos hgt, if_neg (by push_cast; omega)]

lemma grow_correct (r : RingBuffer) (ns : Nat) (h : Inv r) (hgt : r.buf.length < ns) :
    contents (growBuffer r ns) = contents r ∧
      (growBuffer r ns).buf.length = ns ∧
      (growBuffer r ns).readPos = 0 ∧
      (growBuffer r ns).written = r.written ∧
      (growBuffer r ns).growSize = r.growSize := by
  obtain ⟨hq, hr, hw⟩ := h
  rcases r with ⟨b, g, p, w⟩
  simp only at hq hr hw hgt
  rcases le_or_lt (p + w) b.length with ho | ho
  · rw [growBuffer_mk_nowrap b g p w ns hgt ho]
    have hsrc : ((b.drop p).take w).length = w := by
      simp only [List.length_take, List.length_drop]
      omega
    have hov : overwrite (List.replicate ns 0) 0 ((b.drop p).take w) =
        (b.drop p).take w ++ (List.replicate ns 0).drop (0 + ((b.drop p).take w).length) := by
      rw [overwrite_eq _ _ _ (by rw [hsrc, List.length_replicate]; omega)]
      rw [List.take_zero, List.nil_append]
    have hlen : (overwrite (List.replicate ns 0) 0 ((b.drop p).take w)).length = ns := by
      rw [length_overwrite, List.length_replicate]
    rw [contents_mk_nowrap _ _ _ _ (by rw [hlen]; omega), contents_mk_nowrap b g p w ho]
    refine ⟨?_, hlen, rfl, rfl, rfl⟩
    rw [hov, List.drop_zero, take_exact _ _ _ hsrc]
  · rw [growBuffer_mk_wrap b g p w ns hgt ho]
    have hdlen : (b.drop p).length = b.length - p := List.length_drop _ _
    have hinner : overwrite (List.replicate ns 0) 0 (b.drop p) =
        b.drop p ++ (List.replicate ns 0).drop (0 + (b.drop p).length) := by
      rw [overwrite_eq _ _ _ (by rw [hdlen, List.length_replicate]; omega)]
      rw [List.take_zero, List.nil_append]
    have hsrc2 : (b.take (w - (b.length - p))).length = w - (b.length - p) := by
      simp only [List.length_take]
      omega
    have hilen : (overwrite (List.replicate ns 0) 0 (b.drop p)).length = ns := by
      rw [length_overwrite, List.length_replicate]
    have houter : overwrite (overwrite (List.replicate ns 0) 0 (b.drop p)) (b.length - p)
        (b.take (w - (b.length - p))) =
        (overwrite (List.replicate ns 0) 0 (b.drop p)).take (b.length - p) ++
          b.take (w - (b.length - p)) ++
          (overwrite (List.replicate ns 0) 0 (b.drop p)).drop
            (b.length - p + (b.take (w - (b.length - p))).length) :=
      overwrite_eq _ _ _ (by rw [hsrc2, hilen]; omega)
    have htake : (overwrite (List.replicate ns 0) 0 (b.drop p)).take (b.length - p) =
        b.drop p := by
      rw [hinner, take_exact _ _ _ hdlen]
    have hlen2 : (overwrite (overwrite (List.replicate ns 0) 0 (b.drop p)) (b.length - p)
        (b.take (w - (b.length - p)))).length = ns := by
      rw [length_overwrite, hilen]
    rw [contents_mk_nowrap _ _ _ _ (by rw [hlen2]; omega), contents_mk_wrap b g p w hr.le ho]
    refine ⟨?_, hlen2, rfl, rfl, rfl⟩
    rw [houter, htake, List.drop_zero,
      take_exact _ _ _ (by rw [List.length_append, hdlen, hsrc2]; omega)]
    congr 2
    omega

lemma ensure_correct (r : RingBuffer) (n : Nat) (h : Inv r)
    (hov : r.written + n + r.growSize < 2 ^ 63) :
    (ensureCapacity r n).1 = none ∧
      Inv (ensureCapacity r n).2 ∧
      contents (ensureCapacity r n).2 = contents r ∧
      (ensureCapacity r n).2.written = r.written ∧
      (ensureCapacity r n).2.growSize = r.growSize ∧
      r.written + n ≤ (ensureCapacity r n).2.buf.length ∧
      r.buf.length ≤ (ensureCapacity r n).2.buf.length := by
  obtain ⟨hq, hr, hw⟩ := h
  by_cases hc : (n : Int) > (r.buf.length : Int) - (r.written : Int)
  · have hrem : (r.written + n) % r.growSize < r.growSize := Nat.mod_lt _ hq
    have hns_lt : r.written + n + (r.growSize - (r.written + n) % r.growSize) < 2 ^ 63 := by
      omega
    have hgt : r.buf.length <
        r.written + n + (r.growSize - (r.written + n) % r.growSize) := by
      omega
    have hee : ensureCapacity r n =
        (none, growBuffer r (r.written + n + (r.growSize - (r.written + n) % r.growSize))) := by
      simp only [ensureCapacity]
      rw [if_pos hc, if_neg (by omega), if_pos hns_lt]
    have hg := grow_correct r _ ⟨hq, hr, hw⟩ hgt
    rw [hee]
    refine ⟨rfl, ⟨?_, ?_, ?_⟩, hg.1, hg.2.2.2.1, hg.2.2.2.2, ?_, ?_⟩
    · rw [hg.2.2.2.2]
      exact hq
    · rw [hg.2.2.1, hg.2.1]
      omega
    · rw [hg.2.2.2.1, hg.2.1]
      omega
    · rw [hg.2.1]
      omega
    · rw [hg.2.1]
      omega
  · have hee : ensureCapacity r n = (none, r) := by
      simp only [ensureCapacity]
      rw [if_neg hc]
    simp only [hee]
    refine ⟨?_, ⟨hq, hr, hw⟩, ?_, ?_, ?_, ?_, ?_⟩ <;> first | trivial | omega

lemma writeInfo_mk_a (b : List Nat) (g rp w : Nat) (hfull : w ≠ b.length)
    (ho : rp + w < b.length) :
    writeInfo ⟨b, g, rp, w⟩ =
      (rp + w, b.length - (rp + w), if 0 < rp then rp else 0) := by
  simp only [writeInfo]
  rw [if_neg hfull, if_pos (by omega)]

lemma writeInfo_mk_b (b : List Nat) (g rp w : Nat) (hfull : w ≠ b.length)
    (hw : w ≤ b.length) (ho : b.length ≤ rp + w) :
    writeInfo ⟨b, g, rp, w⟩ = (rp + w - b.length, b.length - w, 0) := by
  simp only [writeInfo]
  rw [if_neg hfull, if_neg (by omega)]
  simp only [Prod.mk.injEq, and_true, true_and]
  omega

lemma contents_mk_ge (b : List Nat) (g rp w : Nat) (hr : rp ≤ b.length)
    (hw : w ≤ b.length) (hge : b.length ≤ rp + w) :
    contents ⟨b, g, rp, w⟩ = b.drop rp ++ b.take (rp + w - b.length) := by
  rcases eq_or_lt_of_le hge with he | hlt
  · rw [contents_mk_nowrap b g rp w (by omega),
      show rp + w - b.length = 0 by omega, List.take_zero, List.append_nil]
    exact List.take_of_length_le (by simp only [List.length_drop]; omega)
  · exact contents_mk_wrap b g rp w hr hlt

lemma drop_append_left (x y : List Nat) (m : Nat) (h : m ≤ x.length) :
    (x ++ y).drop m = x.drop m ++ y := by
  rw [List.drop_append_eq_append_drop, Nat.sub_eq_zero_of_le h, List.drop_zero]

lemma writeCore_correct (r : RingBuffer) (xs : List Nat) (h : Inv r) (hn : 1 ≤ xs.length)
    (hfree : r.written + xs.length ≤ r.buf.length) :
    contents (writeCore r xs) = contents r ++ xs ∧
      Inv (writeCore r xs) ∧
      (writeCore r xs).buf.length = r.buf.length ∧
      (writeCore r xs).written = r.written + xs.length ∧
      (writeCore r xs).growSize = r.growSize := by
  obtain ⟨hq, hr, hw⟩ := h
  rcases r with ⟨b, g, rp, w⟩
  simp only at hq hr hw hfree
  have hfull : w ≠ b.length := by omega
  rcases lt_or_le (rp + w) b.length with hA | hB
  · have hwi := writeInfo_mk_a b g rp w hfull hA
    by_cases hs : xs.length ≤ b.length - (rp + w)
    · -- run 1 alone holds the whole input
      have hcore : writeCore ⟨b, g, rp, w⟩ xs =
          ⟨overwrite b (rp + w) xs, g, rp, w + xs.length⟩ := by
        simp only [writeCore, advanceWritePos, hwi]
        rw [if_pos hs]
      have hov : overwrite b (rp + w) xs =
          b.take (rp + w) ++ xs ++ b.drop (rp + w + xs.length) :=
        overwrite_eq _ _ _ (by omega)
      have hlen : (overwrite b (rp + w) xs).length = b.length := length_overwrite _ _ _
      rw [hcore]
      refine ⟨?_, ⟨hq, by simpa [hlen] using hr, by simp only [hlen]; omega⟩,
        by simpa using hlen, rfl, rfl⟩
      rw [contents_mk_nowrap _ _ _ _ (by rw [hlen]; omega),
        contents_mk_nowrap b g rp w (by omega), hov,
        drop_append_left _ _ _
          (by simp only [List.length_append, List.length_take]; omega),
        drop_append_left _ _ _ (by simp only [List.length_take]; omega),
        List.drop_take, Nat.add_sub_cancel_left,
        take_exact _ _ _
          (by simp only [List.length_append, List.length_take, List.length_drop]; omega)]
    · -- the input spills from run 1 into run 2
      have hs2 : b.length - (rp + w) < xs.length := by omega
      have hrp0 : 0 < rp := by omega
      have hcore : writeCore ⟨b, g, rp, w⟩ xs =
          ⟨overwrite (overwrite b (rp + w) (xs.take (b.length - (rp + w)))) 0
            ((xs.drop (b.length - (rp + w))).take rp), g, rp, w + xs.length⟩ := by
        simp only [writeCore, advanceWritePos, hwi]
        rw [if_neg hs, if_pos hrp0]
      have hlen1xs : (xs.take (b.length - (rp + w))).length = b.length - (rp + w) := by
        simp only [List.length_take]
        omega
      have hinner : overwrite b (rp + w) (xs.take (b.length - (rp + w))) =
          b.take (rp + w) ++ xs.take (b.length - (rp + w)) ++
            b.drop (rp + w + (xs.take (b.length - (rp + w))).length) :=
        overwrite_eq _ _ _ (by rw [hlen1xs]; omega)
      rw [hlen1xs,
        List.drop_of_length_le
          (show b.length ≤ rp + w + (b.length - (rp + w)) from by omega),
        List.append_nil] at hinner
      have hinlen : (overwrite b (rp + w) (xs.take (b.length - (rp + w)))).length =
          b.length := length_overwrite _ _ _
      have hd : (xs.drop (b.length - (rp + w))).length =
          xs.length - (b.length - (rp + w)) := by simp
      have hsrc2 : (xs.drop (b.length - (rp + w))).take rp =
          xs.drop (b.length - (rp + w)) :=
        List.take_of_length_le (by rw [hd]; omega)
      have houter := overwrite_eq
        (overwrite b (rp + w) (xs.take (b.length - (rp + w))))
        ((xs.drop (b.length - (rp + w))).take rp) 0
        (by rw [hinlen, hsrc2, hd]; omega)
      rw [List.take_zero, List.nil_append, hsrc2, Nat.zero_add, hd] at houter
      have hout_len : (overwrite (overwrite b (rp + w) (xs.take (b.length - (rp + w)))) 0
          ((xs.drop (b.length - (rp + w))).take rp)).length = b.length := by
        rw [length_overwrite, hinlen]
      rw [hcore]
      refine ⟨?_, ⟨hq, by simpa [hout_len] using hr, by simp only [hout_len]; omega⟩,
        by simpa using hout_len, rfl, rfl⟩
      rw [contents_mk_ge _ g rp (w + xs.length) (by rw [hout_len]; omega)
          (by rw [hout_len]; omega) (by rw [hout_len]; omega),
        contents_mk_nowrap b g rp w (by omega), hout_len, hsrc2, houter]
      have e1 : (xs.drop (b.length - (rp + w)) ++
          (overwrite b (rp + w) (xs.take (b.length - (rp + w)))).drop
            (xs.length - (b.length - (rp + w)))).drop rp =
          (b.drop rp).take w ++ xs.take (b.length - (rp + w)) := by
        rw [List.drop_append_eq_append_drop, hd,
          List.drop_of_length_le
            (show (xs.drop (b.length - (rp + w))).length ≤ rp from by rw [hd]; omega),
          List.nil_append, List.drop_drop,
          show xs.length - (b.length - (rp + w)) +
              (rp - (xs.length - (b.length - (rp + w)))) = rp from by omega,
          hinner,
          drop_append_left _ _ _
            (show rp ≤ (b.take (rp + w)).length from by simp only [List.length_take]; omega),
          List.drop_take, Nat.add_sub_cancel_left]
      have e2 : (xs.drop (b.length - (rp + w)) ++
          (overwrite b (rp + w) (xs.take (b.length - (rp + w)))).drop
            (xs.length - (b.length - (rp + w)))).take (rp + (w + xs.length) - b.length) =
          xs.drop (b.length - (rp + w)) := by
        rw [show rp + (w + xs.length) - b.length = xs.length - (b.length - (rp + w)) by omega,
          take_exact _ _ _ hd]
      rw [e1, e2, List.append_assoc, List.take_append_drop]
  · -- the unread region wraps: the free region is one contiguous run
    have hwi := writeInfo_mk_b b g rp w hfull hw hB
    have hs : xs.length ≤ b.length - w := by omega
    have hcore : writeCore ⟨b, g, rp, w⟩ xs =
        ⟨overwrite b (rp + w - b.length) xs, g, rp, w + xs.length⟩ := by
      simp only [writeCore, advanceWritePos, hwi]
      rw [if_pos hs]
    have hov : overwrite b (rp + w - b.length) xs =
        b.take (rp + w - b.length) ++ xs ++ b.drop (rp + w - b.length + xs.length) :=
      overwrite_eq _ _ _ (by omega)
    have hlen : (overwrite b (rp + w - b.length) xs).length = b.length :=
      length_overwrite _ _ _
    rw [hcore]
    refine ⟨?_, ⟨hq, by simpa [hlen] using hr, by simp only [hlen]; omega⟩,
      by simpa using hlen, rfl, rfl⟩
    rw [contents_mk_ge _ g rp (w + xs.length) (by rw [hlen]; omega)
        (by rw [hlen]; omega) (by rw [hlen]; omega),
      contents_mk_ge b g rp w (by omega) (by omega) hB, hlen, hov]
    have e1 : ((b.take (rp + w - b.length) ++ xs ++
        b.drop (rp + w - b.length + xs.length)).drop rp) = b.drop rp := by
      rw [List.drop_append_eq_append_drop, List.drop_append_eq_append_drop,
        List.drop_of_length_le (by simp only [List.length_take]; omega),
        List.drop_of_length_le (by simp only [List.length_append, List.length_take]; omega),
        List.nil_append, List.nil_append, List.drop_drop]
      congr 1
      simp only [List.length_append, List.length_take]
      omega
    have e2 : ((b.take (rp + w - b.length) ++ xs ++
        b.drop (rp + w - b.length + xs.length)).take (rp + (w + xs.length) - b.length)) =
        b.take (rp + w - b.length) ++ xs := by
      rw [show rp + (w + xs.length) - b.length = rp + w - b.length + xs.length by omega]
      exact take_exact _ _ _
        (by simp only [List.length_append, List.length_take]; omega)
    rw [e1, e2, List.append_assoc]

lemma write_correct (r : RingBuffer) (xs : List Nat) (h : Inv r)
    (hov : r.written + xs.length + r.growSize < 2 ^ 63) :
    (Write r xs).1 = (xs.length, none) ∧
      Inv (Write r xs).2 ∧
      contents (Write r xs).2 = contents r ++ xs ∧
      (Write r xs).2.written = r.written + xs.length ∧
      (Write r xs).2.growSize = r.growSize ∧
      r.buf.length ≤ (Write r xs).2.buf.length := by
  by_cases h0 : xs.length = 0
  · have hxs : xs = [] := List.eq_nil_of_length_eq_zero h0
    subst hxs
    have hW : Write r [] = ((0, none), r) := by simp [Write]
    rw [hW]
    exact ⟨rfl, h, by simp, by simp, rfl, le_refl _⟩
  · have he := ensure_correct r xs.length h hov
    have hW : Write r xs = ((xs.length, none), writeCore (ensureCapacity r xs.length).2 xs) := by
      simp only [Write, if_neg h0, he.1]
    have hwc := writeCore_correct (ensureCapacity r xs.length).2 xs he.2.1 (by omega)
      (by rw [he.2.2.2.1]; exact he.2.2.2.2.2.1)
    rw [hW]
    refine ⟨rfl, hwc.2.1, ?_, ?_, ?_, ?_⟩
    · rw [hwc.1, he.2.2.1]
    · rw [hwc.2.2.2.1, he.2.2.2.1]
    · rw [hwc.2.2.2.2, he.2.2.2.2.1]
    · rw [hwc.2.2.1]
      exact he.2.2.2.2.2.2

lemma writeMany_correct (ws : List (List Nat)) : ∀ (r : RingBuffer), Inv r →
    r.written + ws.flatten.length + r.growSize < 2 ^ 63 →
    (writeMany r ws).2 = true ∧
      Inv (writeMany r ws).1 ∧
      contents (writeMany r ws).1 = contents r ++ ws.flatten ∧
      (writeMany r ws).1.written = r.written + ws.flatten.length ∧
      (writeMany r ws).1.growSize = r.growSize := by
  induction ws with
  | nil =>
    intro r h _
    exact ⟨rfl, h, by simp [writeMany], by simp [writeMany], rfl⟩
  | cons p ps ih =>
    intro r h hb
    have hflat : (p :: ps).flatten.length = p.length + ps.flatten.length := by
      simp
    have hw := write_correct r p h (by omega)
    have hih := ih (Write r p).2 hw.2.1
      (by rw [hw.2.2.2.1, hw.2.2.2.2.1]; omega)
    have hsh : writeMany r (p :: ps) =
        ((writeMany (Write r p).2 ps).1,
          (Write r p).1.2.isNone && (writeMany (Write r p).2 ps).2) := rfl
    rw [hsh]
    refine ⟨?_, hih.2.1, ?_, ?_, ?_⟩
    · simp only [hw.1, hih.1, Option.isNone_none, Bool.and_true]
    · rw [hih.2.2.1, hw.2.2.1, List.flatten_cons, List.append_assoc]
    · rw [hih.2.2.2.1, hw.2.2.2.1, hflat]
      omega
    · rw [hih.2.2.2.2, hw.2.2.2.2.1]

lemma readMany_correct (ks : List Nat) : ∀ (r : RingBuffer), Inv r →
    (readMany r ks).1 = (contents r).take ks.sum ∧ Inv (readMany r ks).2 := by
  induction ks with
  | nil =>
    intro r h
    exact ⟨by simp [readMany], h⟩
  | cons k ks ih =>
    intro r h
    have hr := read_correct k h
    have hih := ih (Read r k).2 hr.2.2.1
    have hsh : readMany r (k :: ks) =
        ((Read r k).1.2.2 ++ (readMany (Read r k).2 ks).1,
          (readMany (Read r k).2 ks).2) := rfl
    rw [hsh]
    refine ⟨?_, hih.2⟩
    rw [hih.1, hr.1, hr.2.1, List.sum_cons, ← List.take_add]

/-! ### Facts about `New` -/

lemma New_eq (gs : Int) : ∃ g : Nat, 0 < g ∧ New gs = ⟨List.replicate g 0, g, 0, 0⟩ := by
  simp only [New, Initialize]
  by_cases h1 : gs ≤ 15
  · exact ⟨16, by omega, by rw [if_pos h1]⟩
  · by_cases h2 : gs > 1048576
    · exact ⟨1048576, by omega, by rw [if_neg h1, if_pos h2]⟩
    · exact ⟨_, Nat.succ_pos _, by rw [if_neg h1, if_neg h2]⟩

lemma New_basic (gs : Int) :
    Inv (New gs) ∧ contents (New gs) = [] ∧ (New gs).written = 0 ∧
      (New gs).readPos = 0 ∧ (New gs).buf.length = (New gs).growSize := by
  obtain ⟨g, hg, he⟩ := New_eq gs
  rw [he]
  refine ⟨⟨hg, by simpa using hg, by simp⟩, ?_, rfl, rfl, by simp⟩
  rw [contents_mk_nowrap _ _ _ _ (by simp)]
  simp

/-! ### Claim theorems -/

/-- Claim C1 (amended): starting from a fresh buffer, for every sequence of
Write calls followed by Read calls whose destination sizes add up to at least
the number of bytes written, all the writes succeed and the bytes returned by
the reads are exactly the concatenation of the written byte sequences, in
write order, regardless of wraps and growths — provided the total number of
bytes written stays below 2^63 minus one growth quantum (the range in which
the `int` size arithmetic of `ensureCapacity` cannot overflow). -/
theorem c1_fifo_order (gs : Int) (ws : List (List Nat)) (sizes : List Nat)
    (hsum : ws.flatten.length ≤ sizes.sum)
    (hov : ws.flatten.length + (New gs).growSize < 2 ^ 63) :
    (writeMany (New gs) ws).2 = true ∧
      (readMany (writeMany (New gs) ws).1 sizes).1 = ws.flatten := by
  obtain ⟨hinv, hcon, hw0, _, _⟩ := New_basic gs
  have hwm := writeMany_correct ws (New gs) hinv (by rw [hw0]; omega)
  have hrm := readMany_correct sizes (writeMany (New gs) ws).1 hwm.2.1
  refine ⟨hwm.1, ?_⟩
  rw [hrm.1, hwm.2.2.1, hcon, List.nil_append]
  exact List.take_of_length_le (by omega)

/-- Witness for C1 at a concrete input: write [1,2,3] then [4,5] into a fresh
buffer of quantum 32, read back 2 then 3 bytes: the reads return
[1,2,3,4,5]. -/
theorem c1_fifo_order_witness :
    (([[1, 2, 3], [4, 5]] : List (List Nat)).flatten.length ≤ ([2, 3] : List Nat).sum) ∧
      ([[1, 2, 3], [4, 5]] : List (List Nat)).flatten.length + (New 32).growSize < 2 ^ 63 ∧
      ((writeMany (New 32) [[1, 2, 3], [4, 5]]).2 = true ∧
        (readMany (writeMany (New 32) [[1, 2, 3], [4, 5]]).1 [2, 3]).1 =
          ([[1, 2, 3], [4, 5]] : List (List Nat)).flatten) :=
  ⟨by decide, by decide, c1_fifo_order 32 [[1, 2, 3], [4, 5]] [2, 3] (by decide) (by decide)⟩

/-! ### The unchecked wrap-around of the rounded target size

For a fresh 16-byte buffer and an input of `2^63 - 16` bytes the required
total `written + n = 2^63 - 16` passes the overflow test, but the rounded
target `2^63` wraps to a negative `int` in Go, so `growBuffer` never runs:
`Write` then reports full success while only 16 bytes fit. -/

lemma write_big_general (p : List Nat) (hlen : p.length = 2 ^ 63 - 16)
    (htake : p.take 16 = List.replicate 16 1) :
    Write (New 16) p = ((2 ^ 63 - 16, none), ⟨List.replicate 16 1, 16, 0, 2 ^ 63 - 16⟩) := by
  have h16 : New 16 = ⟨List.replicate 16 0, 16, 0, 0⟩ := by decide
  have hens : ensureCapacity ⟨List.replicate 16 0, 16, 0, 0⟩ (2 ^ 63 - 16) =
      (none, ⟨List.replicate 16 0, 16, 0, 0⟩) := by decide
  have hwi : writeInfo ⟨List.replicate 16 0, 16, 0, 0⟩ = (0, 16, 0) := by decide
  rw [h16]
  unfold Write
  rw [hlen, if_neg (by decide), hens]
  unfold writeCore
  dsimp only
  rw [hwi]
  dsimp only
  rw [hlen, if_neg (by decide), htake, List.take_zero]
  decide

lemma write_big : Write (New 16) (List.replicate (2 ^ 63 - 16) 1) =
    ((2 ^ 63 - 16, none), ⟨List.replicate 16 1, 16, 0, 2 ^ 63 - 16⟩) :=
  write_big_general _ (List.length_replicate _ _) (by rw [List.take_replicate]; decide)

lemma contents_big : contents ⟨List.replicate 16 1, 16, 0, 2 ^ 63 - 16⟩ =
    List.replicate 32 1 := by
  have hri : readInfo ⟨List.replicate 16 1, 16, 0, 2 ^ 63 - 16⟩ = (0, 16, 2 ^ 63 - 32) := by
    decide
  simp only [contents, hri]
  rw [List.drop_zero, List.take_replicate, List.take_replicate]
  decide

/-- Claim C2, evaluated at the failing input: a fresh 16-byte buffer receives
a Write of `2^63 - 16` bytes.  The required-total check passes (no overflow
error is reported), `Write` returns `(2^63 - 16, nil)`, yet the capacity is
still 16 and only 32 logical bytes are reachable — the write was not stored in
full, contradicting both the claim and `Write`'s own documentation. -/
theorem c2_unchecked_rounding_overflow :
    (Write (New 16) (List.replicate (2 ^ 63 - 16) 1)).1 = (2 ^ 63 - 16, none) ∧
      (Write (New 16) (List.replicate (2 ^ 63 - 16) 1)).2.buf.length = 16 ∧
      (Write (New 16) (List.replicate (2 ^ 63 - 16) 1)).2.written = 2 ^ 63 - 16 ∧
      (contents (Write (New 16) (List.replicate (2 ^ 63 - 16) 1)).2).length = 32 := by
  rw [write_big]
  refine ⟨rfl, by decide, rfl, ?_⟩
  have : (Prod.snd ((2 ^ 63 - 16, (none : Option GoErr)),
      (⟨List.replicate 16 1, 16, 0, 2 ^ 63 - 16⟩ : RingBuffer))) =
      (⟨List.replicate 16 1, 16, 0, 2 ^ 63 - 16⟩ : RingBuffer) := rfl
  rw [this, contents_big]
  decide

/-- Counterexample to claim C4 as stated: the fresh state `New 16` satisfies
both bounds, yet `Write` with a `2^63 - 16`-byte input returns a state with
`written` far above the capacity, because the rounded target size wraps and no
growth happens. -/
theorem c4_counterexample :
    (0 < (New 16).growSize ∧ (New 16).readPos < (New 16).buf.length ∧
      (New 16).written ≤ (New 16).buf.length) ∧
      ¬ ((Write (New 16) (List.replicate (2 ^ 63 - 16) 1)).2.written ≤
          (Write (New 16) (List.replicate (2 ^ 63 - 16) 1)).2.buf.length) := by
  refine ⟨by decide, ?_⟩
  rw [write_big]
  decide

/-- At a state whose 16-byte array is full of 1s with `readPos = 0` and at
least 16 unread bytes, a Read of 16 bytes returns the 16 ones and removes 16
from the unread count, leaving `readPos = 0`.  Go takes `peek`'s first-copy
branch (`n ≤ len1 = 16`), so the second copy — the one that would go out of
bounds on a corrupted count — is never reached, and `advanceReadPos`
subtracts `len(buf) - n = 0`; the execution is panic-free in Go and the model
follows it step by step. -/
lemma read_sixteen (w : Nat) (hw : 16 ≤ w) :
    Read ⟨List.replicate 16 1, 16, 0, w⟩ 16 =
      ((16, none, List.replicate 16 1), ⟨List.replicate 16 1, 16, 0, w - 16⟩) := by
  rcases eq_or_lt_of_le hw with he | hlt
  · rw [← he]
    decide
  · have hri : readInfo ⟨List.replicate 16 1, 16, 0, w⟩ = (0, 16, w - 16) := by
      rw [@readInfo_wrap ⟨List.replicate 16 1, 16, 0, w⟩ (by simp; omega)]
      simp
    have hpk : peek ⟨List.replicate 16 1, 16, 0, w⟩ 16 = (16, none, List.replicate 16 1) := by
      simp only [peek, hri]
      rw [if_neg (by decide), if_neg (by simp), show min 16 (16 + (w - 16)) = 16 from by omega,
        List.drop_zero, List.take_of_length_le (le_of_eq (List.length_replicate 16 1)),
        take_exact _ _ 16 (List.length_replicate 16 1)]
    have hadv : advanceReadPos ⟨List.replicate 16 1, 16, 0, w⟩ 16 =
        ⟨List.replicate 16 1, 16, 0, w - 16⟩ := by
      have h := advanceReadPos_mk_ge (List.replicate 16 1) 16 0 w 16 (by simp) (by simp)
      simpa using h
    simp only [Read, hpk, hadv]

/-- Draining a full-of-1s 16-byte array holding `16 * m` unread bytes with `m`
Reads of 16 bytes each returns `16 * m` ones and ends with zero unread
bytes. -/
lemma readLoop (m : Nat) :
    readMany ⟨List.replicate 16 1, 16, 0, 16 * m⟩ (List.replicate m 16) =
      (List.replicate (16 * m) 1, ⟨List.replicate 16 1, 16, 0, 0⟩) := by
  induction m with
  | zero => simp [readMany]
  | succ k ih =>
    have hrmc : ∀ (r : RingBuffer) (a : Nat) (ks : List Nat),
        readMany r (a :: ks) =
          ((Read r a).1.2.2 ++ (readMany (Read r a).2 ks).1,
            (readMany (Read r a).2 ks).2) := fun _ _ _ => rfl
    rw [show List.replicate (k + 1) 16 = 16 :: List.replicate k 16 from rfl, hrmc,
      read_sixteen (16 * (k + 1)) (by omega)]
    rw [show 16 * (k + 1) - 16 = 16 * k from by omega]
    dsimp only
    rw [ih]
    rw [show 16 * (k + 1) = 16 + 16 * k from by ring, List.replicate_add]

/-- Counterexample to claim C1 as stated: writing `2^63 - 17` ones followed by
a single 2 reports full success (`writeMany` flag true), and `2^59 - 1` Reads
of 16 bytes each then consume every unread byte (final `len()` is 0) along a
panic-free Go execution (each Read stays inside `peek`'s first contiguous
run), yet the concatenated bytes returned are `2^63 - 16` ones — the trailing
2 of the written sequence never comes back, because the write dropped
everything beyond the 16-byte array when the rounded target size wrapped. -/
theorem c1_counterexample :
    (writeMany (New 16) [List.replicate (2 ^ 63 - 17) 1 ++ [2]]).2 = true ∧
      (readMany (writeMany (New 16) [List.replicate (2 ^ 63 - 17) 1 ++ [2]]).1
        (List.replicate (2 ^ 59 - 1) 16)).2.written = 0 ∧
      (readMany (writeMany (New 16) [List.replicate (2 ^ 63 - 17) 1 ++ [2]]).1
        (List.replicate (2 ^ 59 - 1) 16)).1 ≠
        ([List.replicate (2 ^ 63 - 17) 1 ++ [2]] : List (List Nat)).flatten := by
  have hp_len : (List.replicate (2 ^ 63 - 17) (1 : Nat) ++ [2]).length = 2 ^ 63 - 16 := by
    rw [List.length_append, List.length_replicate]
    decide
  have hp_take : (List.replicate (2 ^ 63 - 17) (1 : Nat) ++ [2]).take 16 =
      List.replicate 16 1 := by
    rw [List.take_append_eq_append_take, List.take_replicate,
      show min 16 (2 ^ 63 - 17) = 16 from by decide,
      show 16 - (List.replicate (2 ^ 63 - 17) (1 : Nat)).length = 0 from by
        rw [List.length_replicate]; decide,
      List.take_zero, List.append_nil]
  have hwb := write_big_general _ hp_len hp_take
  have hwm1 : ∀ (r : RingBuffer) (p : List Nat),
      writeMany r [p] = ((Write r p).2, (Write r p).1.2.isNone && true) := fun _ _ => rfl
  have hwm : writeMany (New 16) [List.replicate (2 ^ 63 - 17) 1 ++ [2]] =
      (⟨List.replicate 16 1, 16, 0, 2 ^ 63 - 16⟩, true) := by
    rw [hwm1, hwb]
    rfl
  have hrl := readLoop (2 ^ 59 - 1)
  rw [show 16 * (2 ^ 59 - 1) = 2 ^ 63 - 16 from by decide] at hrl
  rw [hwm]
  dsimp only
  rw [hrl]
  refine ⟨rfl, rfl, ?_⟩
  intro heq
  have h2mem : (2 : Nat) ∈
      ([List.replicate (2 ^ 63 - 17) 1 ++ [2]] : List (List Nat)).flatten := by
    have h1 : ([List.replicate (2 ^ 63 - 17) 1 ++ [2]] : List (List Nat)).flatten =
        List.replicate (2 ^ 63 - 17) 1 ++ [2] ++ [] := rfl
    rw [h1, List.append_nil]
    exact List.mem_append_right _ (List.Mem.head _)
  rw [← heq] at h2mem
  have h21 := List.eq_of_mem_replicate h2mem
  exact absurd h21 (by decide)

/-- Claim C3 (amended): Read and Peek on a buffer holding zero unread bytes,
with a non-empty destination, return count 0 and `io.EOF` (no other error) and
leave the state untouched.  (With an empty destination both return `(0, nil)`
before the unread count is even inspected — see the counterexample.) -/
theorem c3_empty_read_eof (r : RingBuffer) (k : Nat) (hk : 0 < k)
    (hr : r.readPos ≤ r.buf.length) (hw : r.written = 0) :
    Read r k = ((0, some GoErr.eof, []), r) ∧
      Peek r k = ((0, some GoErr.eof, []), r) := by
  have hp := @peek_empty r k hr hw (by omega)
  constructor
  · simp only [Read, hp]
  · simp only [Peek, hp]

/-- Witness for C3: a fresh empty buffer with a 5-byte destination. -/
theorem c3_empty_read_eof_witness :
    (0 < 5 ∧ (New 16).readPos ≤ (New 16).buf.length ∧ (New 16).written = 0) ∧
      (Read (New 16) 5 = ((0, some GoErr.eof, []), New 16) ∧
        Peek (New 16) 5 = ((0, some GoErr.eof, []), New 16)) :=
  ⟨⟨by decide, by decide, by decide⟩,
    c3_empty_read_eof (New 16) 5 (by decide) (by decide) (by decide)⟩

/-- Counterexample to C3 as stated ("with any caller-supplied destination
buffer"): on an empty buffer, Read with a zero-length destination returns
`(0, nil)`, not `io.EOF`, because `peek` returns before checking for data. -/
theorem c3_counterexample :
    (New 16).written = 0 ∧ Read (New 16) 0 = ((0, none, []), New 16) ∧
      (none : Option GoErr) ≠ some GoErr.eof := by
  refine ⟨by decide, ?_, by decide⟩
  decide

lemma writeCore_buflen (r : RingBuffer) (xs : List Nat) :
    (writeCore r xs).buf.length = r.buf.length := by
  unfold writeCore advanceWritePos
  dsimp only
  split <;> simp only [length_overwrite]

lemma growBuffer_len (r : RingBuffer) (ns : Nat) (h : r.buf.length < ns) :
    (growBuffer r ns).buf.length = ns := by
  unfold growBuffer
  rw [if_pos h]
  dsimp only
  split <;> simp only [length_overwrite, List.length_replicate]

/-- Claim C5 (amended): when a Write triggers growth (the requested count
exceeds the free space) and the size arithmetic stays below 2^63, the new
capacity is the smallest multiple of `growth_quantum` that is strictly
greater than `live_count + requested` — i.e. `q * ((live_count+requested)/q + 1)`;
when `live_count + requested` is already an exact multiple of the quantum this
is one full quantum more than the claimed rounded-up value. -/
theorem c5_growth_size (r : RingBuffer) (p : List Nat) (hq : 0 < r.growSize)
    (hw : r.written ≤ r.buf.length)
    (htrig : (p.length : Int) > (r.buf.length : Int) - (r.written : Int))
    (hov : r.written + p.length + r.growSize < 2 ^ 63) :
    (Write r p).1.2 = none ∧
      (Write r p).2.buf.length =
        r.growSize * ((r.written + p.length) / r.growSize + 1) := by
  have hn0 : p.length ≠ 0 := by omega
  have hrem : (r.written + p.length) % r.growSize < r.growSize := Nat.mod_lt _ hq
  have hns_lt : r.written + p.length +
      (r.growSize - (r.written + p.length) % r.growSize) < 2 ^ 63 := by omega
  have hgt : r.buf.length <
      r.written + p.length + (r.growSize - (r.written + p.length) % r.growSize) := by omega
  have hee : ensureCapacity r p.length =
      (none, growBuffer r
        (r.written + p.length + (r.growSize - (r.written + p.length) % r.growSize))) := by
    simp only [ensureCapacity]
    rw [if_pos htrig, if_neg (by omega), if_pos hns_lt]
  have hW : Write r p = ((p.length, none),
      writeCore (growBuffer r
        (r.written + p.length + (r.growSize - (r.written + p.length) % r.growSize))) p) := by
    simp only [Write, if_neg hn0, hee]
  have harith : r.written + p.length +
      (r.growSize - (r.written + p.length) % r.growSize) =
      r.growSize * ((r.written + p.length) / r.growSize + 1) := by
    have h2 := Nat.div_add_mod (r.written + p.length) r.growSize
    rw [Nat.mul_add, Nat.mul_one]
    omega
  rw [hW]
  refine ⟨rfl, ?_⟩
  rw [writeCore_buflen, growBuffer_len r _ hgt, harith]

/-- Witness for C5: fresh quantum-16 buffer, write 32 bytes: the capacity
becomes 16 * (32/16 + 1) = 48. -/
theorem c5_growth_size_witness :
    (0 < (New 16).growSize ∧ (New 16).written ≤ (New 16).buf.length ∧
      ((List.replicate 32 (1 : Nat)).length : Int) >
        ((New 16).buf.length : Int) - ((New 16).written : Int) ∧
      (New 16).written + (List.replicate 32 (1 : Nat)).length + (New 16).growSize < 2 ^ 63) ∧
      ((Write (New 16) (List.replicate 32 1)).1.2 = none ∧
        (Write (New 16) (List.replicate 32 1)).2.buf.length =
          (New 16).growSize *
            (((New 16).written + (List.replicate 32 (1 : Nat)).length) / (New 16).growSize + 1)) :=
  ⟨⟨by decide, by decide, by decide, by decide⟩,
    c5_growth_size (New 16) (List.replicate 32 1) (by decide) (by decide) (by decide) (by decide)⟩

/-- Counterexample to C5 as stated: writing 32 bytes into a fresh quantum-16
buffer gives capacity 48, not the claimed "32 rounded up to the next multiple
of 16" = 32, because the code always adds `growSize - rem` even when the
required total is an exact multiple. -/
theorem c5_counterexample :
    (Write (New 16) (List.replicate 32 1)).2.buf.length = 48 ∧
      specRoundUpToMultiple ((New 16).written + (List.replicate 32 (1 : Nat)).length)
        (New 16).growSize = 32 ∧ (48 : Nat) ≠ 32 :=
  ⟨by decide, by decide, by decide⟩

/-- Claim C7: Peek never mutates the buffer — the state after `Peek` is the
input state, and an immediately repeated `Peek` with the same destination size
returns the identical count, error and bytes. -/
theorem c7_peek_pure (r : RingBuffer) (k : Nat) :
    (Peek r k).2 = r ∧ Peek (Peek r k).2 k = Peek r k :=
  ⟨rfl, rfl⟩

/-- Claim C9: with unread content "aab" and needle "ab", `FindBytes` returns
-1 even though "ab" occurs at logical index 1: after the mismatch at index 1
the mismatching byte is consumed and never re-compared with the first needle
byte. -/
theorem c9_findbytes_misses_overlap :
    FindBytes (Write (New 16) [97, 97, 98]).2 [97, 98] = -1 ∧
      (contents (Write (New 16) [97, 97, 98]).2).drop 1 = [97, 98] := by
  constructor <;> decide

/-- Claim C10: `New` always starts with `read_cursor = live_count = 0`, while
`Initialize` replaces only the backing array and quantum: re-initializing a
grown buffer holding 50 unread bytes with growSize 16 keeps `written = 50`
against a fresh 16-byte array, violating `live_count ≤ C`. -/
theorem c10_initialize_no_reset :
    (∀ gs : Int, (New gs).readPos = 0 ∧ (New gs).written = 0) ∧
      (Initialize (Write (New 16) (List.replicate 50 1)).2 16).written = 50 ∧
      (Initialize (Write (New 16) (List.replicate 50 1)).2 16).buf.length = 16 ∧
      (Initialize (Write (New 16) (List.replicate 50 1)).2 16).readPos =
        (Write (New 16) (List.replicate 50 1)).2.readPos ∧
      ¬ ((Initialize (Write (New 16) (List.replicate 50 1)).2 16).written ≤
          (Initialize (Write (New 16) (List.replicate 50 1)).2 16).buf.length) := by
  constructor
  · intro gs
    obtain ⟨g, hg, he⟩ := New_eq gs
    rw [he]
    exact ⟨rfl, rfl⟩
  · refine ⟨?_, ?_, ?_, ?_⟩ <;> decide

lemma scan_findbytes (b : List Nat) (hb : b.length ≠ 0) :
    ∀ (content : List Nat) (idx cur : Nat) (pot : Int), cur < b.length →
      (scanAux (findBytesStep b) content idx ((-1 : Int), cur, pot)).1 =
        specFindSeqAux b content idx cur pot := by
  intro content
  induction content with
  | nil => intro idx cur pot _; rfl
  | cons c rest ih =>
    intro idx cur pot hcur
    simp only [scanAux, findBytesStep, specFindSeqAux]
    by_cases hc : c = b.getD cur 0
    · rw [if_pos hc, if_pos hc]
      by_cases hlen : cur + 1 = b.length
      · simp [if_pos hlen]
      · simp only [if_neg hlen]
        exact ih (idx + 1) (cur + 1) _ (by omega)
    · rw [if_neg hc, if_neg hc]
      exact ih (idx + 1) 0 pot (by omega)

/-- Claim C8: `FindBytes` computes exactly the single-pass streaming match
described by the spec (`specFindSequence`, modelled from the spec's words)
over the unread content: candidate start recorded when the match offset
begins at zero, offset advanced on a match, reset to zero on a mismatch with
the mismatching byte consumed, -1 when the needle is absent or empty. -/
theorem c8_findbytes_matches_spec (r : RingBuffer) (b : List Nat) :
    FindBytes r b = specFindSequence (contents r) b := by
  by_cases hb : b.length = 0
  · have hnil : b = [] := List.eq_nil_of_length_eq_zero hb
    subst hnil
    simp [FindBytes, specFindSequence]
  · unfold FindBytes specFindSequence Scan
    rw [if_neg hb, if_neg (by intro h; exact hb (by rw [h]; rfl))]
    exact scan_findbytes b hb (contents r) 0 0 (-1) (by omega)

/-- The public operations, for stating state-invariant preservation; the
payload of each constructor is the operation's input.  `applyOp` gives the
state after the call: `Peek`, `Scan`, `Find`, `FindBytes` and `Len` assign no
field, so they return the input state. -/
inductive Op where
  | writeOp (p : List Nat)
  | readOp (k : Nat)
  | peekOp (k : Nat)
  | scanOp
  | findOp (b : Nat)
  | findBytesOp (b : List Nat)
  | lenOp

def applyOp (r : RingBuffer) : Op → RingBuffer
  | .writeOp p => (Write r p).2
  | .readOp k => (Read r k).2
  | .peekOp k => (Peek r k).2
  | .scanOp => r
  | .findOp _ => r
  | .findBytesOp _ => r
  | .lenOp => r

/-- The side condition the counterexample forces on Write: the quantum-rounded
target size must stay below 2^63 (otherwise the Go `int` arithmetic wraps and
the invariant is broken — see `c4_counterexample`). -/
def opBound (r : RingBuffer) : Op → Prop
  | .writeOp p => r.written + p.length + r.growSize < 2 ^ 63
  | _ => True

/-- Claim C4 (amended): every public operation applied to a well-formed state
(positive quantum, `read_cursor < C`, `live_count ≤ C`) yields a state
satisfying the same bounds, and the capacity never decreases — provided a
Write's rounded target size cannot overflow the 64-bit size arithmetic. -/
theorem c4_invariants (r : RingBuffer) (op : Op) (hq : 0 < r.growSize)
    (hr : r.readPos < r.buf.length) (hw : r.written ≤ r.buf.length)
    (hb : opBound r op) :
    (applyOp r op).readPos < (applyOp r op).buf.length ∧
      (applyOp r op).written ≤ (applyOp r op).buf.length ∧
      r.buf.length ≤ (applyOp r op).buf.length := by
  cases op with
  | writeOp p =>
    have hwc := write_correct r p ⟨hq, hr, hw⟩ hb
    exact ⟨hwc.2.1.2.1, hwc.2.1.2.2, hwc.2.2.2.2.2⟩
  | readOp k =>
    have hrd := read_correct k ⟨hq, hr, hw⟩
    exact ⟨hrd.2.2.1.2.1, hrd.2.2.1.2.2, le_of_eq hrd.2.2.2.2.symm⟩
  | peekOp k => exact ⟨hr, hw, le_refl _⟩
  | scanOp => exact ⟨hr, hw, le_refl _⟩
  | findOp b => exact ⟨hr, hw, le_refl _⟩
  | findBytesOp b => exact ⟨hr, hw, le_refl _⟩
  | lenOp => exact ⟨hr, hw, le_refl _⟩

/-- Witness for C4 at a concrete input: a Read of 1 byte on a fresh buffer. -/
theorem c4_invariants_witness :
    (0 < (New 16).growSize ∧ (New 16).readPos < (New 16).buf.length ∧
      (New 16).written ≤ (New 16).buf.length ∧ opBound (New 16) (Op.readOp 1)) ∧
      ((applyOp (New 16) (Op.readOp 1)).readPos <
          (applyOp (New 16) (Op.readOp 1)).buf.length ∧
        (applyOp (New 16) (Op.readOp 1)).written ≤
          (applyOp (New 16) (Op.readOp 1)).buf.length ∧
        (New 16).buf.length ≤ (applyOp (New 16) (Op.readOp 1)).buf.length) :=
  ⟨⟨by decide, by decide, by decide, trivial⟩,
    c4_invariants (New 16) (Op.readOp 1) (by decide) (by decide) (by decide) trivial⟩

/-! ### The bit-smearing sequence rounds up to a power of two -/

/-- Bit `i` of the value sees a set bit of `m` within the next `w`
positions. -/
def orWindow (m i w : Nat) : Prop := ∃ j, i ≤ j ∧ j < i + w ∧ m.testBit j = true

lemma orWindow_base (m : Nat) : ∀ i, m.testBit i = true ↔ orWindow m i 1 := by
  intro i
  constructor
  · intro h
    exact ⟨i, le_refl _, by omega, h⟩
  · rintro ⟨j, h1, h2, h3⟩
    have : j = i := by omega
    subst this
    exact h3

lemma orWindow_double (m a w : Nat)
    (ha : ∀ i, a.testBit i = true ↔ orWindow m i w) :
    ∀ i, (a ||| a >>> w).testBit i = true ↔ orWindow m i (w + w) := by
  intro i
  rw [Nat.testBit_lor, Nat.testBit_shiftRight, Bool.or_eq_true, ha i, ha (w + i)]
  constructor
  · rintro (⟨j, h1, h2, h3⟩ | ⟨j, h1, h2, h3⟩)
    · exact ⟨j, h1, by omega, h3⟩
    · exact ⟨j, by omega, by omega, h3⟩
  · rintro ⟨j, h1, h2, h3⟩
    rcases lt_or_le j (i + w) with h4 | h4
    · exact Or.inl ⟨j, h1, h4, h3⟩
    · exact Or.inr ⟨j, by omega, by omega, h3⟩

lemma smear_pow2 (m : Nat) (hm : 1 ≤ m) (hmb : m < 2 ^ 21) :
    (m ||| m >>> 1 ||| (m ||| m >>> 1) >>> 2 |||
        (m ||| m >>> 1 ||| (m ||| m >>> 1) >>> 2) >>> 4 |||
        (m ||| m >>> 1 ||| (m ||| m >>> 1) >>> 2 |||
          (m ||| m >>> 1 ||| (m ||| m >>> 1) >>> 2) >>> 4) >>> 8 |||
        (m ||| m >>> 1 ||| (m ||| m >>> 1) >>> 2 |||
          (m ||| m >>> 1 ||| (m ||| m >>> 1) >>> 2) >>> 4 |||
          (m ||| m >>> 1 ||| (m ||| m >>> 1) >>> 2 |||
            (m ||| m >>> 1 ||| (m ||| m >>> 1) >>> 2) >>> 4) >>> 8) >>> 16) + 1 =
      2 ^ (m.log2 + 1) := by
  have h2 := orWindow_double m m 1 (orWindow_base m)
  have h4 := orWindow_double m _ 2 h2
  have h8 := orWindow_double m _ 4 h4
  have h16 := orWindow_double m _ 8 h8
  have h32 := orWindow_double m _ 16 h16
  have hm0 : m ≠ 0 := by omega
  have ht1 : 2 ^ m.log2 ≤ m := Nat.log2_self_le hm0
  have ht2 : m < 2 ^ (m.log2 + 1) := Nat.lt_log2_self
  have htlt : m.log2 < 21 := (Nat.log2_lt hm0).2 hmb
  have htop : m.testBit m.log2 = true := by
    have hdiv : m / 2 ^ m.log2 = 1 := by
      refine Nat.div_eq_of_lt_le (by omega) ?_
      have : (1 + 1) * 2 ^ m.log2 = 2 ^ (m.log2 + 1) := by
        rw [Nat.pow_succ]
        ring
      omega
    rw [Nat.testBit_to_div_mod, hdiv]
    rfl
  have hhigh : ∀ j, m.log2 < j → m.testBit j = false := by
    intro j hj
    refine Nat.testBit_eq_false_of_lt (lt_of_lt_of_le ht2 ?_)
    exact Nat.pow_le_pow_right (by omega) (by omega)
  have hfill : (m ||| m >>> 1 ||| (m ||| m >>> 1) >>> 2 |||
      (m ||| m >>> 1 ||| (m ||| m >>> 1) >>> 2) >>> 4 |||
      (m ||| m >>> 1 ||| (m ||| m >>> 1) >>> 2 |||
        (m ||| m >>> 1 ||| (m ||| m >>> 1) >>> 2) >>> 4) >>> 8 |||
      (m ||| m >>> 1 ||| (m ||| m >>> 1) >>> 2 |||
        (m ||| m >>> 1 ||| (m ||| m >>> 1) >>> 2) >>> 4 |||
        (m ||| m >>> 1 ||| (m ||| m >>> 1) >>> 2 |||
          (m ||| m >>> 1 ||| (m ||| m >>> 1) >>> 2) >>> 4) >>> 8) >>> 16) =
      2 ^ (m.log2 + 1) - 1 := by
    apply Nat.eq_of_testBit_eq
    intro i
    rw [Nat.testBit_two_pow_sub_one]
    rcases le_or_lt i m.log2 with hi | hi
    · have hb : _ = true := (h32 i).2 ⟨m.log2, hi, by omega, htop⟩
      rw [hb, eq_comm, decide_eq_true_eq]
      omega
    · have hb : ¬ _ = true := fun hh => by
        obtain ⟨j, hj1, hj2, hj3⟩ := (h32 i).1 hh
        rw [hhigh j (by omega)] at hj3
        exact Bool.false_ne_true hj3
      rw [Bool.not_eq_true] at hb
      rw [hb, eq_comm, decide_eq_false_iff_not]
      omega
  rw [hfill]
  have : 1 ≤ 2 ^ (m.log2 + 1) := Nat.one_le_two_pow
  omega

/-- Claim C6: `New gs` starts with `read_cursor = live_count = 0`, the initial
capacity equals the growth quantum, the quantum is a power of two in
[16, 1048576]; it is exactly 16 when gs ≤ 15, exactly 1048576 when
gs > 1048576, and otherwise the least power of two ≥ gs (characterized by
`gs ≤ q < 2*gs`, which pins the power of two uniquely). -/
theorem c6_construction_normalization (gs : Int) :
    (New gs).readPos = 0 ∧ (New gs).written = 0 ∧
      (New gs).buf.length = (New gs).growSize ∧
      (∃ k, (New gs).growSize = 2 ^ k) ∧
      16 ≤ (New gs).growSize ∧ (New gs).growSize ≤ 1048576 ∧
      (gs ≤ 15 → (New gs).growSize = 16) ∧
      (1048576 < gs → (New gs).growSize = 1048576) ∧
      (15 < gs → gs ≤ 1048576 →
        gs.toNat ≤ (New gs).growSize ∧ (New gs).growSize < 2 * gs.toNat) := by
  obtain ⟨hinv, _, hw0, hrp0, hlen⟩ := New_basic gs
  refine ⟨hrp0, hw0, hlen, ?_⟩
  by_cases h1 : gs ≤ 15
  · have hg : (New gs).growSize = 16 := by
      simp only [New, Initialize]
      rw [if_pos h1]
    rw [hg]
    exact ⟨⟨4, by norm_num⟩, by norm_num, by norm_num, fun _ => rfl,
      fun h => absurd h (by omega), fun h => absurd h (by omega)⟩
  · by_cases h2 : gs > 1048576
    · have hg : (New gs).growSize = 1048576 := by
        simp only [New, Initialize]
        rw [if_neg h1, if_pos h2]
      rw [hg]
      exact ⟨⟨20, by norm_num⟩, by norm_num, by norm_num,
        fun h => absurd h (by omega), fun _ => rfl,
        fun _ h => absurd h (by omega)⟩
    · have hg : (New gs).growSize =
          (gs.toNat - 1 ||| (gs.toNat - 1) >>> 1 |||
              (gs.toNat - 1 ||| (gs.toNat - 1) >>> 1) >>> 2 |||
              (gs.toNat - 1 ||| (gs.toNat - 1) >>> 1 |||
                (gs.toNat - 1 ||| (gs.toNat - 1) >>> 1) >>> 2) >>> 4 |||
              (gs.toNat - 1 ||| (gs.toNat - 1) >>> 1 |||
                (gs.toNat - 1 ||| (gs.toNat - 1) >>> 1) >>> 2 |||
                (gs.toNat - 1 ||| (gs.toNat - 1) >>> 1 |||
                  (gs.toNat - 1 ||| (gs.toNat - 1) >>> 1) >>> 2) >>> 4) >>> 8 |||
              (gs.toNat - 1 ||| (gs.toNat - 1) >>> 1 |||
                (gs.toNat - 1 ||| (gs.toNat - 1) >>> 1) >>> 2 |||
                (gs.toNat - 1 ||| (gs.toNat - 1) >>> 1 |||
                  (gs.toNat - 1 ||| (gs.toNat - 1) >>> 1) >>> 2) >>> 4 |||
                (gs.toNat - 1 ||| (gs.toNat - 1) >>> 1 |||
                  (gs.toNat - 1 ||| (gs.toNat - 1) >>> 1) >>> 2 |||
                  (gs.toNat - 1 ||| (gs.toNat - 1) >>> 1 |||
                    (gs.toNat - 1 ||| (gs.toNat - 1) >>> 1) >>> 2) >>> 4) >>> 8) >>> 16) +
            1 := by
        simp only [New, Initialize]
        rw [if_neg h1, if_neg h2]
      have hgs16 : (16 : Int) ≤ gs := by omega
      have hm1 : 1 ≤ gs.toNat - 1 := by omega
      have hmb : gs.toNat - 1 < 2 ^ 21 := by
        have : gs.toNat ≤ 1048576 := by omega
        omega
      have hp := smear_pow2 (gs.toNat - 1) hm1 hmb
      rw [hg, hp]
      have ht1 : 2 ^ (gs.toNat - 1).log2 ≤ gs.toNat - 1 := Nat.log2_self_le (by omega)
      have ht2 : gs.toNat - 1 < 2 ^ ((gs.toNat - 1).log2 + 1) := Nat.lt_log2_self
      have htle : (gs.toNat - 1).log2 ≤ 19 := by
        have := (Nat.log2_lt (show gs.toNat - 1 ≠ 0 by omega)).2
          (show gs.toNat - 1 < 2 ^ 20 by omega)
        omega
      have hsucc : 2 ^ ((gs.toNat - 1).log2 + 1) = 2 * 2 ^ (gs.toNat - 1).log2 := by
        rw [Nat.pow_succ]
        ring
      have hle20 : 2 ^ ((gs.toNat - 1).log2 + 1) ≤ 2 ^ 20 :=
        Nat.pow_le_pow_right (by omega) (by omega)
      refine ⟨⟨(gs.toNat - 1).log2 + 1, rfl⟩, by omega, by norm_num at hle20 ⊢; omega,
        fun h => absurd h (by omega), fun h => absurd h (by omega), fun _ _ => ⟨by omega, by omega⟩⟩

/-- Witness for C6 at gs = 100: the middle branch rounds 100 up to a power of
two q with 100 ≤ q < 200 (namely 128). -/
theorem c6_construction_normalization_witness :
    ((15 : Int) < 100 ∧ (100 : Int) ≤ 1048576) ∧
      ((100 : Int).toNat ≤ (New 100).growSize ∧ (New 100).growSize < 2 * (100 : Int).toNat) :=
  ⟨⟨by decide, by decide⟩,
    (c6_construction_normalization 100).2.2.2.2.2.2.2.2 (by decide) (by decide)⟩

example : (New 32).buf.length = 32 := by decide
example : (New 100).growSize = 128 := by decide
example : (New (-5)).growSize = 16 := by decide
example : (New 2000000).growSize = 1048576 := by decide
example : (Write (New 16) [1, 2, 3]).1 = (3, none) := by decide
example : (Read (Write (New 16) [1, 2, 3]).2 5).1 = (3, none, [1, 2, 3]) := by decide
example : (Read (New 16) 5).1 = (0, some GoErr.eof, []) := by decide
example : (Read (New 16) 0).1 = (0, none, []) := by decide
example :
    (Write (Write (New 16) (List.replicate 12 7)).2 (List.replicate 10 9)).2.buf.length = 32 := by
  decide
example : Find (Write (New 16) [5, 6, 7]).2 6 = 1 := by decide
example : FindBytes (Write (New 16) [97, 97, 98]).2 [97, 98] = -1 := by decide
example : FindBytes (Write (New 16) [97, 98, 99]).2 [98, 99] = 1 := by decide
example : FindBytes (Write (New 16) [97, 98]).2 [] = -1 := by decide

end RB
